import Mathlib

/-!
Shallow embedding of the milestone-tracker backend routes
(`src/server/src/routes/milestones.ts`) and of the client-side completion
check (`src/client/hooks/useMilestones.ts`), together with proofs about
them.

The Prisma `milestone` table is modelled as a `List Milestone` (the whole
table, across users).  Each Express handler becomes a pure function from
the current table and the authenticated user's id to the new table and the
HTTP response (`Except ApiError _`).  Prisma queries are translated as
follows:

* `findMany({where:{userId}, orderBy:{order:'asc'}})` — filter by user and
  stable-sort by the `order` field (`listMilestones`);
* `findFirst({where:...})` — `List.find?`;
* `update({where:{id}, data})` — map over the table, rewriting every row
  with that id (ids are globally unique primary keys in the schema);
* `aggregate(_max.order)` — `maxOrderAux`.
-/

/-- A row of the `Milestone` table (fields used by the routes; the
`createdAt`/`date` timestamp is omitted — no route reads or writes it
after creation). -/
structure Milestone where
  id : String
  userId : String
  title : String
  description : String
  type : String
  tags : List String
  completed : Bool
  order : Int
deriving DecidableEq

/-- The error responses the milestone routes produce:
`notFound` is the 404 "Milestone not found"; `precedingIncomplete` the
400 "Complete previous milestones first"; `cannotUncheck` the 400
"Cannot uncheck completed milestone"; `reorderFailed` the 500
"Failed to reorder milestones" sent when one of the reorder's
`prisma.milestone.update` calls rejects. -/
inductive ApiError where
  | notFound
  | precedingIncomplete
  | cannotUncheck
  | reorderFailed
deriving DecidableEq

/-- The comparison realising Prisma's `orderBy: { order: 'asc' }`. -/
def orderLe (a b : Milestone) : Prop := a.order ≤ b.order

/-- Strict version of `orderLe`, used to state uniqueness of sorted lists. -/
def orderLt (a b : Milestone) : Prop := a.order < b.order

instance : DecidableRel orderLe :=
  fun a b => inferInstanceAs (Decidable (a.order ≤ b.order))

instance : IsTotal Milestone orderLe := ⟨fun a b => Int.le_total a.order b.order⟩

instance : IsTrans Milestone orderLe := ⟨fun _ _ _ h1 h2 => le_trans h1 h2⟩

instance : IsAntisymm Milestone orderLt :=
  ⟨fun _ _ h1 h2 => absurd h2 (not_lt.mpr (le_of_lt h1))⟩

/-- Rows sorted ascending by `order` (a stable sort, as a relational
`ORDER BY` on equal keys is modelled deterministically). -/
def sortByOrder (l : List Milestone) : List Milestone := l.insertionSort orderLe

/-- GET `/` — `findMany({where:{userId}, orderBy:{order:'asc'}})`. -/
def listMilestones (store : List Milestone) (u : String) : List Milestone :=
  sortByOrder (store.filter (fun m => decide (m.userId = u)))

/-- Request body of POST `/` (absent JSON fields are `none`). -/
structure CreateBody where
  title : String
  description : Option String
  type : Option String
  tags : Option (List String)
deriving DecidableEq

/-- `aggregate({_max:{order:true}})` over a row set: `none` when empty. -/
def maxOrderAux : List Milestone → Option Int
  | [] => none
  | m :: rest =>
    match maxOrderAux rest with
    | none => some m.order
    | some v => some (max m.order v)

/-- POST `/` — create a milestone.  `newId` stands for the id generated by
the database; `completed` starts `false` (the schema default — the handler
never sets it).  The handler computes the max `order` among the user's
rows and appends at `(max ?? -1) + 1`. -/
def createMilestone (store : List Milestone) (u newId : String) (b : CreateBody) :
    List Milestone × Milestone :=
  let userMs := store.filter (fun m => decide (m.userId = u))
  let newOrder : Int := (maxOrderAux userMs).getD (-1) + 1
  let m : Milestone :=
    { id := newId
      userId := u
      title := b.title
      description := b.description.getD ("")
      type := b.type.getD ("feature")
      tags := b.tags.getD []
      completed := false
      order := newOrder }
  (store ++ [m], m)

/-- Request body of PATCH `/:id` (absent JSON fields are `none`,
mirroring the handler's `!== undefined` spreads). -/
structure UpdateBody where
  title : Option String
  description : Option String
  type : Option String
  tags : Option (List String)
  completed : Option Bool
deriving DecidableEq

/-- The `data` object of the PATCH update: each field is written only when
present in the body (`...(x !== undefined && { x })`). -/
def applyBody (b : UpdateBody) (m : Milestone) : Milestone :=
  { m with
    title := b.title.getD m.title
    description := b.description.getD m.description
    type := b.type.getD m.type
    tags := b.tags.getD m.tags
    completed := b.completed.getD m.completed }

/-- PATCH `/:id` — ownership check (`findFirst {id, userId}`), the
preceding-incomplete guard, the uncheck guard, then the field update. -/
def patchMilestone (store : List Milestone) (u mid : String) (b : UpdateBody) :
    List Milestone × Except ApiError Milestone :=
  match store.find? (fun m => decide (m.id = mid) && decide (m.userId = u)) with
  | none => (store, Except.error ApiError.notFound)
  | some existing =>
    if b.completed = some true ∧ existing.completed = false
        ∧ (store.find? (fun m =>
            decide (m.userId = u) && decide (m.order < existing.order)
              && !m.completed)).isSome then
      (store, Except.error ApiError.precedingIncomplete)
    else if b.completed = some false ∧ existing.completed = true then
      (store, Except.error ApiError.cannotUncheck)
    else
      (store.map (fun m => if m.id = mid then applyBody b m else m),
       Except.ok (applyBody b existing))

/-- DELETE `/:id` — ownership check, then `delete({where:{id}})`. -/
def deleteMilestone (store : List Milestone) (u mid : String) :
    List Milestone × Except ApiError Unit :=
  match store.find? (fun m => decide (m.id = mid) && decide (m.userId = u)) with
  | none => (store, Except.error ApiError.notFound)
  | some _ => (store.filter (fun m => !decide (m.id = mid)), Except.ok ())

/-- Sequential numbering of ids starting at `n` (the handler's
`currentOrder++` loop producing the `updates` array). -/
def numberFrom (n : Int) : List String → List (String × Int)
  | [] => []
  | i :: rest => (i, n) :: numberFrom (n + 1) rest

/-- The `updates` array built by POST `/reorder`: completed milestones of
the user (in their current sorted order) first, then the submitted
`orderedIds`, numbered `0, 1, 2, ...`.  The handler performs no
validation of `orderedIds` whatsoever. -/
def reorderUpdates (store : List Milestone) (u : String) (orderedIds : List String) :
    List (String × Int) :=
  let allMilestones := listMilestones store u
  let completedMilestones := allMilestones.filter (fun m => m.completed)
  numberFrom 0 (completedMilestones.map (fun m => m.id) ++ orderedIds)

/-- One `prisma.milestone.update({where:{id}, data:{order}})`: rewrite the
`order` of every row with that id (the id is the primary key, so at most
one row matches).  Note there is no `userId` filter. -/
def applyOrderUpdate (store : List Milestone) (p : String × Int) : List Milestone :=
  store.map (fun m => if m.id = p.1 then { m with order := p.2 } else m)

def applyOrderUpdates (store : List Milestone) (upds : List (String × Int)) :
    List Milestone :=
  upds.foldl applyOrderUpdate store

/-- Whether some update targets an id with no row — that
`prisma.milestone.update` rejects, making the handler's `Promise.all`
reject and the response a 500. -/
def updateMissing (store : List Milestone) (upds : List (String × Int)) : Bool :=
  upds.any (fun p => store.all (fun m => !decide (m.id = p.1)))

/-- POST `/reorder`.  The updates are issued through `Promise.all` of
independent single-row updates (no transaction): when one of them rejects
(its id has no row) the handler answers 500, but the other updates still
commit.  This is modelled by always applying every update whose id exists
(a missing id's update is a no-op on the table) and flagging the error;
the fold order is a serialisation of the concurrent writes, which only
matters when the same id is updated twice. -/
def reorderMilestones (store : List Milestone) (u : String) (orderedIds : List String) :
    List Milestone × Except ApiError (List Milestone) :=
  let upds := reorderUpdates store u orderedIds
  let newStore := applyOrderUpdates store upds
  if updateMissing store upds then
    (newStore, Except.error ApiError.reorderFailed)
  else
    (newStore, Except.ok (listMilestones newStore u))

/-- The client hook's `canCompleteMilestone`
(`src/client/hooks/useMilestones.ts`): find the index of the id and check
that every earlier entry of the array is completed. -/
def canCompleteMilestone (milestones : List Milestone) (mid : String) : Bool :=
  match milestones.findIdx? (fun m => decide (m.id = mid)) with
  | none => false
  | some index => (milestones.take index).all (fun m => m.completed)

/-- The PATCH body sent by the client's `completeMilestone`:
`{ completed: true }` and nothing else. -/
def completeBody : UpdateBody :=
  { title := none, description := none, type := none, tags := none,
    completed := some true }

/-- Ids of the user's incomplete milestones in their current order — the
set/sequence the specification requires a reorder request to submit. -/
def incompleteIds (store : List Milestone) (u : String) : List String :=
  ((listMilestones store u).filter (fun m => !m.completed)).map (fun m => m.id)

/-- Short-hand for concrete table rows in examples. -/
def mkM (i u : String) (c : Bool) (o : Int) : Milestone :=
  { id := i, userId := u, title := i, description := ("")
    type := ("feature"), tags := [], completed := c, order := o }

/-! ### Basic lemmas about the embedded operations -/

theorem mem_sortByOrder {l : List Milestone} {m : Milestone} :
    m ∈ sortByOrder l ↔ m ∈ l :=
  List.mem_insertionSort orderLe

theorem sortByOrder_perm (l : List Milestone) : List.Perm (sortByOrder l) l :=
  List.perm_insertionSort orderLe l

theorem sortByOrder_sorted (l : List Milestone) : (sortByOrder l).Sorted orderLe :=
  List.sorted_insertionSort orderLe l

theorem mem_unique_by_id {l : List Milestone} {m1 m2 : Milestone}
    (hnd : (l.map Milestone.id).Nodup) (h1 : m1 ∈ l) (h2 : m2 ∈ l)
    (hid : m1.id = m2.id) : m1 = m2 := by
  induction l with
  | nil => cases h1
  | cons a t ih =>
    rw [List.map_cons, List.nodup_cons] at hnd
    rcases List.mem_cons.mp h1 with rfl | h1'
    · rcases List.mem_cons.mp h2 with rfl | h2'
      · rfl
      · exact absurd (hid ▸ List.mem_map_of_mem Milestone.id h2') hnd.1
    · rcases List.mem_cons.mp h2 with rfl | h2'
      · have : m2.id ∈ t.map Milestone.id := hid ▸ List.mem_map_of_mem Milestone.id h1'
        exact absurd this hnd.1
      · exact ih hnd.2 h1' h2'

theorem find?_id_user {store : List Milestone} {u mid : String} {ex : Milestone}
    (hnd : (store.map Milestone.id).Nodup) (hmem : ex ∈ store)
    (hid : ex.id = mid) (hu : ex.userId = u) :
    store.find? (fun m => decide (m.id = mid) && decide (m.userId = u)) = some ex := by
  induction store with
  | nil => cases hmem
  | cons a t ih =>
    rw [List.map_cons, List.nodup_cons] at hnd
    rcases List.mem_cons.mp hmem with rfl | hmem'
    · exact List.find?_cons_of_pos t (by simp [hid, hu])
    · by_cases hp : a.id = mid ∧ a.userId = u
      · exfalso
        have : a.id ∈ t.map Milestone.id := by
          rw [hp.1, ← hid]; exact List.mem_map_of_mem Milestone.id hmem'
        exact hnd.1 this
      · rw [List.find?_cons_of_neg t (by simpa using fun h1 h2 => hp ⟨h1, h2⟩)]
        exact ih hnd.2 hmem'

/-- Pointwise effect of one user's full `updates` list on one table row:
the fold of per-row conditional order rewrites. -/
def updMil (upds : List (String × Int)) (m : Milestone) : Milestone :=
  upds.foldl (fun acc p => if acc.id = p.1 then { acc with order := p.2 } else acc) m

theorem updMil_nil (m : Milestone) : updMil [] m = m := rfl

theorem updMil_cons (p : String × Int) (t : List (String × Int)) (m : Milestone) :
    updMil (p :: t) m = updMil t (if m.id = p.1 then { m with order := p.2 } else m) := rfl

theorem updMil_shape (upds : List (String × Int)) (m : Milestone) :
    ∃ v : Int, updMil upds m = { m with order := v } := by
  induction upds generalizing m with
  | nil => exact ⟨m.order, rfl⟩
  | cons p t ih =>
    rw [updMil_cons]
    by_cases h : m.id = p.1
    · rw [if_pos h]
      obtain ⟨v, hv⟩ := ih { m with order := p.2 }
      exact ⟨v, by rw [hv]⟩
    · rw [if_neg h]
      exact ih m

theorem updMil_id (upds : List (String × Int)) (m : Milestone) :
    (updMil upds m).id = m.id := by
  obtain ⟨v, hv⟩ := updMil_shape upds m; rw [hv]

theorem updMil_userId (upds : List (String × Int)) (m : Milestone) :
    (updMil upds m).userId = m.userId := by
  obtain ⟨v, hv⟩ := updMil_shape upds m; rw [hv]

theorem updMil_completed (upds : List (String × Int)) (m : Milestone) :
    (updMil upds m).completed = m.completed := by
  obtain ⟨v, hv⟩ := updMil_shape upds m; rw [hv]

theorem applyOrderUpdates_eq_map (store : List Milestone) (upds : List (String × Int)) :
    applyOrderUpdates store upds = store.map (updMil upds) := by
  induction upds generalizing store with
  | nil =>
    rw [show (updMil [] : Milestone → Milestone) = id from funext fun m => rfl, List.map_id]
    rfl
  | cons p t ih =>
    calc applyOrderUpdates store (p :: t)
        = applyOrderUpdates (applyOrderUpdate store p) t := rfl
      _ = (applyOrderUpdate store p).map (updMil t) := ih _
      _ = store.map (updMil (p :: t)) := by
          rw [applyOrderUpdate, List.map_map]; rfl

theorem numberFrom_map_fst (n : Int) (ids : List String) :
    (numberFrom n ids).map Prod.fst = ids := by
  induction ids generalizing n with
  | nil => rfl
  | cons i t ih => simp [numberFrom, ih]

theorem numberFrom_length (n : Int) (ids : List String) :
    (numberFrom n ids).length = ids.length := by
  induction ids generalizing n with
  | nil => rfl
  | cons i t ih => simp [numberFrom, ih]

theorem mem_numberFrom_of_getElem (n : Int) (ids : List String) (i : Nat)
    (hi : i < ids.length) : (ids[i], n + (i : Int)) ∈ numberFrom n ids := by
  induction ids generalizing n i with
  | nil => exact absurd hi (Nat.not_lt_zero i)
  | cons x t ih =>
    cases i with
    | zero => simp [numberFrom]
    | succ j =>
      have hj : j < t.length := Nat.lt_of_succ_lt_succ hi
      have hmem := ih (n + 1) j hj
      have harith : n + ((j : Int) + 1) = n + 1 + (j : Int) := by omega
      simp only [numberFrom, List.getElem_cons_succ, List.mem_cons]
      right
      push_cast
      rw [harith]
      exact hmem

theorem updMil_eq_self (upds : List (String × Int)) (m : Milestone)
    (h : m.id ∉ upds.map Prod.fst) : updMil upds m = m := by
  induction upds with
  | nil => rfl
  | cons p t ih =>
    rw [List.map_cons] at h
    have h1 : m.id ≠ p.1 := fun e => h (e ▸ List.mem_cons_self p.1 (t.map Prod.fst))
    have h2 : m.id ∉ t.map Prod.fst := fun hm => h (List.mem_cons_of_mem _ hm)
    rw [updMil_cons, if_neg h1]
    exact ih h2

theorem updMil_eq_of_mem (upds : List (String × Int)) (m : Milestone) (v : Int)
    (hnd : (upds.map Prod.fst).Nodup) (h : (m.id, v) ∈ upds) :
    updMil upds m = { m with order := v } := by
  induction upds generalizing m with
  | nil => cases h
  | cons p t ih =>
    rw [List.map_cons, List.nodup_cons] at hnd
    rcases List.mem_cons.mp h with heq | hmem
    · have hp1 : p.1 = m.id := by rw [← heq]
      have hp2 : p.2 = v := by rw [← heq]
      rw [updMil_cons, if_pos hp1.symm]
      have hni : ({ m with order := p.2 } : Milestone).id ∉ t.map Prod.fst := by
        show m.id ∉ t.map Prod.fst
        rw [← hp1]; exact hnd.1
      rw [updMil_eq_self t _ hni, hp2]
    · have hne : m.id ≠ p.1 := by
        intro e
        exact hnd.1 (e ▸ List.mem_map_of_mem Prod.fst hmem)
      rw [updMil_cons, if_neg hne]
      exact ih m hnd.2 hmem

theorem mem_store_of_mem_listMilestones {store : List Milestone} {u : String}
    {m : Milestone} (h : m ∈ listMilestones store u) : m ∈ store :=
  List.mem_of_mem_filter (mem_sortByOrder.mp h)

theorem reorderUpdates_map_fst (store : List Milestone) (u : String)
    (orderedIds : List String) :
    (reorderUpdates store u orderedIds).map Prod.fst
      = ((listMilestones store u).filter (fun m => m.completed)).map (fun m => m.id)
          ++ orderedIds := by
  simp only [reorderUpdates]
  exact numberFrom_map_fst 0 _

theorem reorderMilestones_fst (store : List Milestone) (u : String)
    (orderedIds : List String) :
    (reorderMilestones store u orderedIds).1
      = store.map (updMil (reorderUpdates store u orderedIds)) := by
  by_cases h : updateMissing store (reorderUpdates store u orderedIds) = true
  · simp [reorderMilestones, h, applyOrderUpdates_eq_map]
  · simp [reorderMilestones, h, applyOrderUpdates_eq_map]

theorem updateMissing_eq_false (store : List Milestone) (upds : List (String × Int))
    (h : ∀ p ∈ upds, ∃ m ∈ store, m.id = p.1) :
    updateMissing store upds = false := by
  rw [updateMissing, List.any_eq_false]
  intro p hp
  obtain ⟨m, hm, hid⟩ := h p hp
  simp only [List.all_eq_true, Bool.not_eq_true]
  intro hall
  have := hall m hm
  simp [hid] at this

theorem updateMissing_eq_true (store : List Milestone) (upds : List (String × Int))
    (p : String × Int) (hp : p ∈ upds) (h : ∀ m ∈ store, m.id ≠ p.1) :
    updateMissing store upds = true := by
  rw [updateMissing, List.any_eq_true]
  refine ⟨p, hp, ?_⟩
  rw [List.all_eq_true]
  intro m hm
  simpa using h m hm

theorem map_eq_self_of_mem {l : List Milestone} {f : Milestone → Milestone}
    (h : ∀ m ∈ l, f m = m) : l.map f = l := by
  induction l with
  | nil => rfl
  | cons a t ih =>
    rw [List.map_cons, h a (List.mem_cons_self a t),
      ih (fun m hm => h m (List.mem_cons_of_mem a hm))]

theorem maxOrderAux_eq_none {l : List Milestone} : maxOrderAux l = none ↔ l = [] := by
  cases l with
  | nil => simp [maxOrderAux]
  | cons a t =>
    cases h : maxOrderAux t <;> simp [maxOrderAux, h]

theorem maxOrderAux_spec {l : List Milestone} {v : Int} (h : maxOrderAux l = some v) :
    (∃ m ∈ l, m.order = v) ∧ ∀ m ∈ l, m.order ≤ v := by
  induction l generalizing v with
  | nil => cases h
  | cons a t ih =>
    cases ht : maxOrderAux t with
    | none =>
      rw [maxOrderAux, ht] at h
      have hav : a.order = v := by simpa using h
      have ht' : t = [] := maxOrderAux_eq_none.mp ht
      subst ht'
      exact ⟨⟨a, List.mem_cons_self a [], hav⟩, by
        intro m hm
        rcases List.mem_cons.mp hm with rfl | hm'
        · exact le_of_eq hav
        · cases hm'⟩
    | some w =>
      rw [maxOrderAux, ht] at h
      have hv : max a.order w = v := by simpa using h
      obtain ⟨⟨mw, hmw, hmwv⟩, hb⟩ := ih ht
      constructor
      · rcases max_cases a.order w with ⟨he, _⟩ | ⟨he, _⟩
        · exact ⟨a, List.mem_cons_self a t, by rw [← hv, he]⟩
        · exact ⟨mw, List.mem_cons_of_mem a hmw, by rw [← hv, he, hmwv]⟩
      · intro m hm
        rcases List.mem_cons.mp hm with rfl | hm'
        · rw [← hv]; exact le_max_left _ _
        · rw [← hv]
          exact le_trans (hb m hm') (le_max_right _ _)

theorem update_ids_exist (store : List Milestone) (u : String)
    (orderedIds : List String) (h : ∀ i ∈ orderedIds, ∃ m ∈ store, m.id = i) :
    ∀ p ∈ reorderUpdates store u orderedIds, ∃ m ∈ store, m.id = p.1 := by
  intro p hp
  have hfst : p.1 ∈ (reorderUpdates store u orderedIds).map Prod.fst :=
    List.mem_map_of_mem Prod.fst hp
  rw [reorderUpdates_map_fst] at hfst
  rcases List.mem_append.mp hfst with hc | ho
  · obtain ⟨m, hm, hid⟩ := List.mem_map.mp hc
    exact ⟨m, mem_store_of_mem_listMilestones (List.mem_of_mem_filter hm), hid⟩
  · exact h p.1 ho

theorem reorder_isOk_of_ids_exist (store : List Milestone) (u : String)
    (orderedIds : List String) (h : ∀ i ∈ orderedIds, ∃ m ∈ store, m.id = i) :
    ((reorderMilestones store u orderedIds).2).isOk = true := by
  have hmiss := updateMissing_eq_false store _ (update_ids_exist store u orderedIds h)
  simp [reorderMilestones, hmiss, Except.isOk, Except.toBool]

theorem reorder_snd_of_ids_exist (store : List Milestone) (u : String)
    (orderedIds : List String) (h : ∀ i ∈ orderedIds, ∃ m ∈ store, m.id = i) :
    (reorderMilestones store u orderedIds).2
      = Except.ok (listMilestones (reorderMilestones store u orderedIds).1 u) := by
  have hmiss := updateMissing_eq_false store _ (update_ids_exist store u orderedIds h)
  simp [reorderMilestones, hmiss]

/-! ### C1 — the reorder handler has no id-set validation -/

/-- C1 counterexample: with table `[a(done,0), b(pending,1), c(pending,2)]`
(one user), the submitted list `["c"]` is not a permutation of the
incomplete ids `["b","c"]` (the id `"b"` is missing), yet the reorder
succeeds (no `SetMismatch` rejection exists) and `c`'s order changes
from 2 to 1. -/
theorem reorder_accepts_mismatched_set_cex :
    ((reorderMilestones [mkM ("a") ("u") true 0, mkM ("b") ("u") false 1,
        mkM ("c") ("u") false 2] ("u") [("c")]).2).isOk = true
    ∧ (reorderMilestones [mkM ("a") ("u") true 0, mkM ("b") ("u") false 1,
        mkM ("c") ("u") false 2] ("u") [("c")]).1
      = [mkM ("a") ("u") true 0, mkM ("b") ("u") false 1, mkM ("c") ("u") false 1] :=
  ⟨rfl, rfl⟩

/-- C1 (amended): the reorder handler performs no validation of the
submitted id list: whenever every submitted id exists in the table the
reorder succeeds — even when the submitted ids are not a permutation of
the user's incomplete milestone ids (missing, extra-but-existing,
duplicate, or completed ids included).  No `SetMismatch` error exists in
the code; a nonexistent id produces a generic 500 storage failure
instead. -/
theorem reorder_succeeds_whenever_ids_exist
    (store : List Milestone) (u : String) (orderedIds : List String)
    (h : ∀ i ∈ orderedIds, ∃ m ∈ store, m.id = i) :
    ((reorderMilestones store u orderedIds).2).isOk = true :=
  reorder_isOk_of_ids_exist store u orderedIds h

/-- C1 witness: a completed milestone's id `"a"` submitted alongside the
pending `"b"` (a set mismatch the specification says must be rejected) is
accepted. -/
theorem reorder_succeeds_whenever_ids_exist_witness :
    ((reorderMilestones [mkM ("a") ("u") true 0, mkM ("b") ("u") false 1] ("u")
        [("a"), ("b")]).2).isOk = true :=
  reorder_succeeds_whenever_ids_exist _ _ _ (by decide)

/-! ### C2 — ownership is not enforced by the reorder update loop -/

/-- C2 failing input: the table holds `mu` owned by `"u"` and `mv` owned by
`"v"` (at order 5).  User `"u"`'s reorder request `["mv"]` rewrites the
order of `"v"`'s milestone to 1 — the unscoped
`prisma.milestone.update({where:{id}})` has no ownership filter. -/
theorem reorder_mutates_other_users_milestone :
    reorderMilestones [mkM ("mu") ("u") true 0, mkM ("mv") ("v") false 5] ("u") [("mv")]
      = ([mkM ("mu") ("u") true 0, mkM ("mv") ("v") false 1],
         Except.ok [mkM ("mu") ("u") true 0]) := rfl

/-! ### C3 — a second completion silently succeeds -/

/-- C3 counterexample: the milestone `a` is already completed; the client's
completion request (`PATCH` with `{completed: true}`) succeeds with a 200
and the unchanged milestone instead of failing with an `AlreadyCompleted`
error (no such error exists in the code). -/
theorem second_completion_returns_success_cex :
    patchMilestone [mkM ("a") ("u") true 0] ("u") ("a") completeBody
      = ([mkM ("a") ("u") true 0], Except.ok (mkM ("a") ("u") true 0)) := rfl

/-- C3 (amended): a completion request against an already-completed
milestone silently succeeds as a no-op: the handler returns 200 with the
unchanged milestone and the table is unchanged.  There is no
`AlreadyCompleted` error in the code. -/
theorem second_completion_silent_noop
    (store : List Milestone) (u mid : String) (ex : Milestone)
    (hnd : (store.map Milestone.id).Nodup) (hmem : ex ∈ store)
    (hid : ex.id = mid) (hu : ex.userId = u) (hc : ex.completed = true) :
    patchMilestone store u mid completeBody = (store, Except.ok ex) := by
  have h1 : applyBody completeBody ex = ex := by
    obtain ⟨i, us, t, d, ty, tg, c, o⟩ := ex
    simp only [applyBody, completeBody, Option.getD_none, Option.getD_some]
    simp_all
  unfold patchMilestone
  simp only [find?_id_user hnd hmem hid hu]
  rw [if_neg (by simp [hc, completeBody]), if_neg (by simp [completeBody])]
  have h2 : store.map (fun m => if m.id = mid then applyBody completeBody m else m)
      = store := by
    apply map_eq_self_of_mem
    intro m hm
    by_cases hmi : m.id = mid
    · have hme : m = ex := mem_unique_by_id hnd hm hmem (by rw [hmi, hid])
      rw [if_pos hmi, hme, h1]
    · rw [if_neg hmi]
  rw [h1, h2]

/-- C3 witness for the amended theorem, at a concrete completed milestone. -/
theorem second_completion_silent_noop_witness :
    patchMilestone [mkM ("a") ("u") true 0, mkM ("b") ("u") false 1] ("u") ("a")
        completeBody
      = ([mkM ("a") ("u") true 0, mkM ("b") ("u") false 1],
         Except.ok (mkM ("a") ("u") true 0)) :=
  second_completion_silent_noop _ _ _ (mkM ("a") ("u") true 0)
    (by decide) (by decide) (by decide) (by decide) (by decide)

/-! ### C8 — the reorder bulk update is not all-or-nothing -/

/-- C8 counterexample: user `"u"` has the single pending milestone `b` at
order 7; the reorder request `["b", "ghost"]` fails (the id `"ghost"` has
no row, so `Promise.all` rejects and the handler answers 500), yet `b`'s
update has already been persisted: its order is now 0.  A failed reorder
leaves a partially-applied reorder behind. -/
theorem reorder_failure_partially_persists_cex :
    reorderMilestones [mkM ("b") ("u") false 7] ("u") [("b"), ("ghost")]
      = ([mkM ("b") ("u") false 0], Except.error ApiError.reorderFailed) := rfl

/-- C8 (amended): the reorder's updates are issued as independent per-row
writes under `Promise.all`, with no transaction.  When a submitted id has
no row the request fails with the 500, but every update whose id does
exist is still applied to the table — the bulk update is not
all-or-nothing. -/
theorem reorder_failure_still_applies_updates
    (store : List Milestone) (u ghost : String) (orderedIds : List String)
    (hg : ghost ∈ orderedIds) (hgs : ∀ m ∈ store, m.id ≠ ghost)
    (hund : ((reorderUpdates store u orderedIds).map Prod.fst).Nodup) :
    ((reorderMilestones store u orderedIds).2 = Except.error ApiError.reorderFailed)
    ∧ (∀ p ∈ reorderUpdates store u orderedIds, ∀ m ∈ store, m.id = p.1 →
        { m with order := p.2 } ∈ (reorderMilestones store u orderedIds).1) := by
  have hgfst : ghost ∈ (reorderUpdates store u orderedIds).map Prod.fst := by
    rw [reorderUpdates_map_fst]; exact List.mem_append_right _ hg
  obtain ⟨p, hp, hpfst⟩ := List.mem_map.mp hgfst
  have hmiss : updateMissing store (reorderUpdates store u orderedIds) = true :=
    updateMissing_eq_true store _ p hp (by
      intro m hm
      rw [hpfst]
      exact hgs m hm)
  constructor
  · simp [reorderMilestones, hmiss]
  · intro q hq m hm hmq
    rw [reorderMilestones_fst]
    have hupd : updMil (reorderUpdates store u orderedIds) m = { m with order := q.2 } :=
      updMil_eq_of_mem _ m q.2 hund (by rw [hmq, Prod.mk.eta]; exact hq)
    rw [← hupd]
    exact List.mem_map_of_mem _ hm

/-- C8 witness: the amended theorem applied at the counterexample input. -/
theorem reorder_failure_still_applies_updates_witness :
    ((reorderMilestones [mkM ("b") ("u") false 7] ("u") [("b"), ("ghost")]).2
        = Except.error ApiError.reorderFailed)
    ∧ (∀ p ∈ reorderUpdates [mkM ("b") ("u") false 7] ("u") [("b"), ("ghost")],
        ∀ m ∈ [mkM ("b") ("u") false 7], m.id = p.1 →
          { m with order := p.2 }
            ∈ (reorderMilestones [mkM ("b") ("u") false 7] ("u")
                [("b"), ("ghost")]).1) :=
  reorder_failure_still_applies_updates _ _ ("ghost") _
    (by decide) (by decide) (by decide)

/-! ### C10 — insert appends at max(order) + 1 -/

/-- C10: POST `/` returns the old table with the new milestone appended;
the new milestone's order is 0 when the user has no milestones, and
otherwise is strictly greater than all of the user's orders and equal to
one of them plus one (that is, `max(order) + 1`).  No existing row is
touched. -/
theorem create_appends_at_max_plus_one
    (store : List Milestone) (u newId : String) (b : CreateBody) :
    ((createMilestone store u newId b).1 = store ++ [(createMilestone store u newId b).2])
    ∧ ((∀ m ∈ store, m.userId ≠ u) → (createMilestone store u newId b).2.order = 0)
    ∧ ((∃ m ∈ store, m.userId = u) →
        (∀ m ∈ store, m.userId = u → m.order < (createMilestone store u newId b).2.order)
        ∧ (∃ m ∈ store, m.userId = u
            ∧ (createMilestone store u newId b).2.order = m.order + 1)) := by
  refine ⟨rfl, ?_, ?_⟩
  · intro hnone
    have hfilter : store.filter (fun m => decide (m.userId = u)) = [] := by
      rw [List.filter_eq_nil_iff]
      intro m hm
      simpa using hnone m hm
    simp [createMilestone, hfilter, maxOrderAux]
  · rintro ⟨m0, hm0, hu0⟩
    have hmem0 : m0 ∈ store.filter (fun m => decide (m.userId = u)) :=
      List.mem_filter.mpr ⟨hm0, by simpa using hu0⟩
    cases hmax : maxOrderAux (store.filter (fun m => decide (m.userId = u))) with
    | none => exact absurd (maxOrderAux_eq_none.mp hmax) (List.ne_nil_of_mem hmem0)
    | some v =>
      obtain ⟨⟨mw, hmw, hmwv⟩, hb⟩ := maxOrderAux_spec hmax
      constructor
      · intro m hm hmu
        have hmf : m ∈ store.filter (fun m => decide (m.userId = u)) :=
          List.mem_filter.mpr ⟨hm, by simpa using hmu⟩
        have hle := hb m hmf
        simp only [createMilestone, hmax, Option.getD_some]
        omega
      · refine ⟨mw, List.mem_of_mem_filter hmw, ?_, ?_⟩
        · have := (List.mem_filter.mp hmw).2
          simpa using this
        · simp only [createMilestone, hmax, Option.getD_some]
          rw [hmwv]

/-- C10 witness: creating into an empty table gives order 0. -/
theorem create_appends_at_max_plus_one_witness :
    (createMilestone [] ("u") ("n")
        { title := ("t"), description := none, type := none, tags := none }).2.order
      = 0 :=
  (create_appends_at_max_plus_one [] ("u") ("n")
      { title := ("t"), description := none, type := none, tags := none }).2.1
    (by decide)

/-! ### C7 — completed is monotonic under PATCH -/

/-- C7: once a milestone is completed it can never be unchecked: a PATCH
carrying `completed: false` fails with the 400 "Cannot uncheck completed
milestone" and leaves the table unchanged, and no PATCH whatsoever can
leave that milestone with `completed = false`. -/
theorem completed_is_monotonic
    (store : List Milestone) (u mid : String) (b : UpdateBody) (ex : Milestone)
    (hnd : (store.map Milestone.id).Nodup) (hmem : ex ∈ store)
    (hid : ex.id = mid) (hu : ex.userId = u) (hc : ex.completed = true) :
    (b.completed = some false →
      patchMilestone store u mid b = (store, Except.error ApiError.cannotUncheck))
    ∧ (∀ m ∈ (patchMilestone store u mid b).1, m.id = mid → m.completed = true) := by
  constructor
  · intro hbf
    unfold patchMilestone
    simp only [find?_id_user hnd hmem hid hu]
    rw [if_neg (by simp [hbf]), if_pos ⟨hbf, hc⟩]
  · intro m hm hmid
    unfold patchMilestone at hm
    simp only [find?_id_user hnd hmem hid hu] at hm
    have h1 : ¬(b.completed = some true ∧ ex.completed = false
        ∧ (store.find? (fun m => decide (m.userId = u) && decide (m.order < ex.order)
            && !m.completed)).isSome) := by
      simp [hc]
    rw [if_neg h1] at hm
    by_cases h2 : b.completed = some false ∧ ex.completed = true
    · rw [if_pos h2] at hm
      rw [mem_unique_by_id hnd hm hmem (hmid.trans hid.symm)]
      exact hc
    · rw [if_neg h2] at hm
      have hbf : b.completed ≠ some false := fun e => h2 ⟨e, hc⟩
      obtain ⟨m0, hm0mem, rfl⟩ := List.mem_map.mp hm
      by_cases hm0 : m0.id = mid
      · rw [if_pos hm0] at hmid ⊢
        have hm0ex : m0 = ex := mem_unique_by_id hnd hm0mem hmem (hm0.trans hid.symm)
        subst hm0ex
        show (b.completed).getD m0.completed = true
        cases hbc : b.completed with
        | none => simpa using hc
        | some tv =>
          cases tv with
          | false => exact absurd hbc hbf
          | true => simp
      · rw [if_neg hm0] at hmid
        exact absurd hmid hm0

/-- C7 witness: the uncheck of a concrete completed milestone is rejected
and the milestone stays completed. -/
theorem completed_is_monotonic_witness :
    (({ title := none, description := none, type := none, tags := none,
          completed := some false } : UpdateBody).completed = some false →
      patchMilestone [mkM ("a") ("u") true 0] ("u") ("a")
          { title := none, description := none, type := none, tags := none,
            completed := some false }
        = ([mkM ("a") ("u") true 0], Except.error ApiError.cannotUncheck))
    ∧ (∀ m ∈ (patchMilestone [mkM ("a") ("u") true 0] ("u") ("a")
          { title := none, description := none, type := none, tags := none,
            completed := some false }).1, m.id = ("a") → m.completed = true) :=
  completed_is_monotonic [mkM ("a") ("u") true 0] ("u") ("a")
    { title := none, description := none, type := none, tags := none,
      completed := some false } (mkM ("a") ("u") true 0)
    (by decide) (by decide) (by decide) (by decide) (by decide)

/-! ### C5 — completion requires all preceding milestones complete -/

/-- C5: the completion request (the client's PATCH with body
`{completed: true}`) against an incomplete milestone fails with the 400
"Complete previous milestones first" exactly when some milestone of the
same user with strictly smaller order is incomplete — leaving the table
unchanged — and otherwise succeeds, the result differing from the input
only in that one milestone's `completed` flag. -/
theorem completion_succeeds_iff_preceding_complete
    (store : List Milestone) (u mid : String) (ex : Milestone)
    (hnd : (store.map Milestone.id).Nodup) (hmem : ex ∈ store)
    (hid : ex.id = mid) (hu : ex.userId = u) (hc : ex.completed = false) :
    ((∃ m ∈ store, m.userId = u ∧ m.order < ex.order ∧ m.completed = false) →
      patchMilestone store u mid completeBody
        = (store, Except.error ApiError.precedingIncomplete))
    ∧ ((∀ m ∈ store, m.userId = u → m.order < ex.order → m.completed = true) →
      patchMilestone store u mid completeBody
        = (store.map (fun m => if m.id = mid then { m with completed := true } else m),
           Except.ok ({ ex with completed := true }))) := by
  constructor
  · rintro ⟨m0, hm0, hmu, hmo, hmc⟩
    unfold patchMilestone
    simp only [find?_id_user hnd hmem hid hu]
    have hsome : (store.find? (fun m => decide (m.userId = u)
        && decide (m.order < ex.order) && !m.completed)).isSome := by
      rw [List.find?_isSome]
      exact ⟨m0, hm0, by simp [hmu, hmo, hmc]⟩
    rw [if_pos ⟨rfl, hc, hsome⟩]
  · intro hall
    unfold patchMilestone
    simp only [find?_id_user hnd hmem hid hu]
    have hnone : ¬(store.find? (fun m => decide (m.userId = u)
        && decide (m.order < ex.order) && !m.completed)).isSome := by
      rw [List.find?_isSome]
      rintro ⟨m0, hm0, hp⟩
      simp only [Bool.and_eq_true, decide_eq_true_eq, Bool.not_eq_true'] at hp
      obtain ⟨⟨hmu, hmo⟩, hmc⟩ := hp
      exact absurd (hall m0 hm0 hmu hmo) (by simp [hmc])
    rw [if_neg (fun hcon => hnone hcon.2.2), if_neg (by simp [completeBody])]
    have happ : ∀ m : Milestone, applyBody completeBody m = { m with completed := true } :=
      fun m => rfl
    simp only [happ]

/-- C5 witness: completing `b` while the preceding `a` is still pending is
rejected with the 400 and the table is unchanged. -/
theorem completion_succeeds_iff_preceding_complete_witness :
    patchMilestone [mkM ("a") ("u") false 0, mkM ("b") ("u") false 1] ("u") ("b")
        completeBody
      = ([mkM ("a") ("u") false 0, mkM ("b") ("u") false 1],
         Except.error ApiError.precedingIncomplete) :=
  (completion_succeeds_iff_preceding_complete
      [mkM ("a") ("u") false 0, mkM ("b") ("u") false 1] ("u") ("b")
      (mkM ("b") ("u") false 1)
      (by decide) (by decide) (by decide) (by decide) (by decide)).1
    ⟨mkM ("a") ("u") false 0, by decide, by decide, by decide, by decide⟩

/-! ### C4 — the client-side canCompleteMilestone check -/

theorem canComplete_cons (a : Milestone) (l : List Milestone) (mid : String) :
    canCompleteMilestone (a :: l) mid
      = if a.id = mid then true
        else a.completed && canCompleteMilestone l mid := by
  by_cases h : a.id = mid
  · simp [canCompleteMilestone, h]
  · rw [if_neg h]
    unfold canCompleteMilestone
    rw [List.findIdx?_cons, if_neg (by simp [h]), List.findIdx?_start_succ]
    cases hf : l.findIdx? (fun m => decide (m.id = mid)) with
    | none => simp
    | some j => simp [List.take_succ_cons]

instance : DecidableRel orderLt :=
  fun a b => inferInstanceAs (Decidable (a.order < b.order))

/-- C4: on an ordered milestone list (strictly ascending `order` values —
unique orders, as data-model invariant 1 requires of a user's list), the
client hook's `canCompleteMilestone` returns true iff the id is present
and every milestone with strictly smaller order is completed; for an
absent id the right-hand side is unsatisfiable, so it returns false. -/
theorem canComplete_iff (L : List Milestone) (mid : String)
    (hs : L.Pairwise orderLt) :
    canCompleteMilestone L mid = true ↔
      ∃ mi ∈ L, mi.id = mid ∧ ∀ m ∈ L, m.order < mi.order → m.completed = true := by
  induction L with
  | nil => simp [canCompleteMilestone]
  | cons a l ih =>
    rw [List.pairwise_cons] at hs
    obtain ⟨ha, hl⟩ := hs
    rw [canComplete_cons]
    by_cases h : a.id = mid
    · rw [if_pos h]
      constructor
      · intro _
        refine ⟨a, List.mem_cons_self a l, h, ?_⟩
        intro m hm hmo
        rcases List.mem_cons.mp hm with rfl | hm'
        · exact absurd hmo (lt_irrefl _)
        · exact absurd hmo (lt_asymm (ha m hm'))
      · intro _
        rfl
    · rw [if_neg h]
      by_cases hac : a.completed = true
      · rw [hac, Bool.true_and, ih hl]
        constructor
        · rintro ⟨mi, hmi, hmid, hall⟩
          refine ⟨mi, List.mem_cons_of_mem a hmi, hmid, ?_⟩
          intro m hm hmo
          rcases List.mem_cons.mp hm with rfl | hm'
          · exact hac
          · exact hall m hm' hmo
        · rintro ⟨mi, hmi, hmid, hall⟩
          rcases List.mem_cons.mp hmi with rfl | hmi'
          · exact absurd hmid h
          · exact ⟨mi, hmi', hmid,
              fun m hm hmo => hall m (List.mem_cons_of_mem a hm) hmo⟩
      · simp only [Bool.not_eq_true] at hac
        rw [hac, Bool.false_and]
        constructor
        · intro hfalse
          simp at hfalse
        · rintro ⟨mi, hmi, hmid, hall⟩
          rcases List.mem_cons.mp hmi with rfl | hmi'
          · exact absurd hmid h
          · have hat : a.completed = true :=
              hall a (List.mem_cons_self a l) (ha mi hmi')
            rw [hac] at hat
            cases hat

/-- C4 witness: on `[a(done,0), b(pending,1)]` the check for `b` is true,
matching the order-based characterisation. -/
theorem canComplete_iff_witness :
    canCompleteMilestone [mkM ("a") ("u") true 0, mkM ("b") ("u") false 1] ("b")
      = true :=
  (canComplete_iff [mkM ("a") ("u") true 0, mkM ("b") ("u") false 1] ("b")
      (by decide)).mpr
    ⟨mkM ("b") ("u") false 1, by decide, by decide, by decide⟩

/-! ### Machinery for the reorder's order assignment (C6, C9) -/

/-- The user's completed milestones in their current order — the handler's
`completedMilestones` array. -/
def completedPart (store : List Milestone) (u : String) : List Milestone :=
  (listMilestones store u).filter (fun m => m.completed)

theorem reorderUpdates_eq (store : List Milestone) (u : String)
    (orderedIds : List String) :
    reorderUpdates store u orderedIds
      = numberFrom 0 ((completedPart store u).map (fun m => m.id) ++ orderedIds) := rfl

theorem completedPart_sub_store {store : List Milestone} {u : String}
    {m : Milestone} (h : m ∈ completedPart store u) : m ∈ store :=
  mem_store_of_mem_listMilestones (List.mem_of_mem_filter h)

theorem listMilestones_id_nodup (store : List Milestone) (u : String)
    (hnd : (store.map Milestone.id).Nodup) :
    ((listMilestones store u).map (fun m => m.id)).Nodup := by
  have hsub : List.Sublist
      ((store.filter (fun m => decide (m.userId = u))).map (fun m => m.id))
      (store.map (fun m => m.id)) :=
    List.Sublist.map _ (List.filter_sublist store)
  have hfil : ((store.filter (fun m => decide (m.userId = u))).map (fun m => m.id)).Nodup :=
    hnd.sublist hsub
  exact (((sortByOrder_perm _).map (fun m => m.id)).symm).nodup hfil

theorem reorder_ids_perm (store : List Milestone) (u : String)
    (orderedIds : List String)
    (hperm : List.Perm orderedIds (incompleteIds store u)) :
    List.Perm ((completedPart store u).map (fun m => m.id) ++ orderedIds)
      ((listMilestones store u).map (fun m => m.id)) := by
  have h1 : List.Perm ((completedPart store u).map (fun m => m.id) ++ orderedIds)
      ((completedPart store u).map (fun m => m.id) ++ incompleteIds store u) :=
    List.Perm.append_left _ hperm
  have h3 : List.Perm
      (completedPart store u ++ (listMilestones store u).filter (fun m => !m.completed))
      (listMilestones store u) :=
    List.filter_append_perm _ _
  have h4 := h3.map (fun m => m.id)
  rw [List.map_append] at h4
  exact h1.trans h4

theorem reorder_ids_nodup (store : List Milestone) (u : String)
    (orderedIds : List String) (hnd : (store.map Milestone.id).Nodup)
    (hperm : List.Perm orderedIds (incompleteIds store u)) :
    ((completedPart store u).map (fun m => m.id) ++ orderedIds).Nodup :=
  ((reorder_ids_perm store u orderedIds hperm).symm).nodup
    (listMilestones_id_nodup store u hnd)

theorem reorder_upds_fst_nodup (store : List Milestone) (u : String)
    (orderedIds : List String) (hnd : (store.map Milestone.id).Nodup)
    (hperm : List.Perm orderedIds (incompleteIds store u)) :
    ((reorderUpdates store u orderedIds).map Prod.fst).Nodup := by
  rw [reorderUpdates_map_fst]
  exact reorder_ids_nodup store u orderedIds hnd hperm

theorem mem_upds_completed (store : List Milestone) (u : String)
    (orderedIds : List String) (j : Nat)
    (hj : j < (completedPart store u).length) :
    (((completedPart store u).get ⟨j, hj⟩).id, (j : Int))
      ∈ reorderUpdates store u orderedIds := by
  have hjm : j < ((completedPart store u).map (fun m => m.id)).length := by
    simpa using hj
  have hlen : j < ((completedPart store u).map (fun m => m.id) ++ orderedIds).length := by
    simp only [List.length_append]
    omega
  have hmem := mem_numberFrom_of_getElem 0
    ((completedPart store u).map (fun m => m.id) ++ orderedIds) j hlen
  rw [reorderUpdates_eq]
  have hget : ((completedPart store u).map (fun m => m.id) ++ orderedIds)[j]
      = ((completedPart store u).get ⟨j, hj⟩).id := by
    rw [List.getElem_append_left hjm]
    simp
  rw [hget] at hmem
  simpa using hmem

theorem mem_upds_ordered (store : List Milestone) (u : String)
    (orderedIds : List String) (j : Nat) (hj : j < orderedIds.length) :
    (orderedIds.get ⟨j, hj⟩, ((completedPart store u).length : Int) + (j : Int))
      ∈ reorderUpdates store u orderedIds := by
  have hlen : (completedPart store u).length + j
      < ((completedPart store u).map (fun m => m.id) ++ orderedIds).length := by
    simp only [List.length_append, List.length_map]
    omega
  have hmem := mem_numberFrom_of_getElem 0
    ((completedPart store u).map (fun m => m.id) ++ orderedIds)
    ((completedPart store u).length + j) hlen
  rw [reorderUpdates_eq]
  have hge : ((completedPart store u).map (fun m => m.id)).length
      ≤ (completedPart store u).length + j := by
    simp only [List.length_map]
    omega
  have hget : ((completedPart store u).map (fun m => m.id) ++ orderedIds)[
      (completedPart store u).length + j] = orderedIds.get ⟨j, hj⟩ := by
    rw [List.getElem_append_right hge]
    simp
  rw [hget] at hmem
  have harith : (0 : Int) + (((completedPart store u).length + j : Nat) : Int)
      = ((completedPart store u).length : Int) + (j : Int) := by
    push_cast
    omega
  rw [harith] at hmem
  exact hmem

/-- C6: when the submitted ids are exactly a permutation of the user's
incomplete milestone ids (and the table's ids are unique, as the primary
key guarantees), the reorder succeeds and, writing `completedPart` for
the user's completed milestones in their prior order and `k` for their
count: the j-th completed milestone keeps every field and receives order
`j` — the completed prefix occupies slots 0..k-1 preserving its relative
order — and the milestone submitted at position j keeps every other
field and receives order `k + j` — slots k..k+m-1 in exactly the
submitted order. -/
theorem reorder_order_assignment
    (store : List Milestone) (u : String) (orderedIds : List String)
    (hnd : (store.map Milestone.id).Nodup)
    (hperm : List.Perm orderedIds (incompleteIds store u)) :
    ((reorderMilestones store u orderedIds).2).isOk = true
    ∧ (∀ j (hj : j < (completedPart store u).length),
        ∀ m' ∈ (reorderMilestones store u orderedIds).1,
          m'.id = ((completedPart store u).get ⟨j, hj⟩).id →
            m' = { (completedPart store u).get ⟨j, hj⟩ with order := (j : Int) })
    ∧ (∀ j (hj : j < orderedIds.length),
        ∀ m' ∈ (reorderMilestones store u orderedIds).1,
          m'.id = orderedIds.get ⟨j, hj⟩ →
            ∃ m ∈ store, m.id = orderedIds.get ⟨j, hj⟩
              ∧ m' = { m with
                  order := ((completedPart store u).length : Int) + (j : Int) }) := by
  have hids_exist : ∀ i ∈ orderedIds, ∃ m ∈ store, m.id = i := by
    intro i hi
    have hinc := hperm.subset hi
    obtain ⟨m, hm, rfl⟩ := List.mem_map.mp hinc
    exact ⟨m, mem_store_of_mem_listMilestones (List.mem_of_mem_filter hm), rfl⟩
  have hfstnd := reorder_upds_fst_nodup store u orderedIds hnd hperm
  refine ⟨reorder_isOk_of_ids_exist store u orderedIds hids_exist, ?_, ?_⟩
  · intro j hj m' hm' hmid
    rw [reorderMilestones_fst] at hm'
    obtain ⟨m, hm, rfl⟩ := List.mem_map.mp hm'
    rw [updMil_id] at hmid
    have hcj : (completedPart store u).get ⟨j, hj⟩ ∈ store :=
      completedPart_sub_store (List.get_mem _ _ _)
    have hmeq : m = (completedPart store u).get ⟨j, hj⟩ :=
      mem_unique_by_id hnd hm hcj hmid
    rw [hmeq]
    exact updMil_eq_of_mem _ _ _ hfstnd (mem_upds_completed store u orderedIds j hj)
  · intro j hj m' hm' hmid
    rw [reorderMilestones_fst] at hm'
    obtain ⟨m, hm, rfl⟩ := List.mem_map.mp hm'
    rw [updMil_id] at hmid
    refine ⟨m, hm, hmid, ?_⟩
    exact updMil_eq_of_mem _ _ _ hfstnd
      (by rw [hmid]; exact mem_upds_ordered store u orderedIds j hj)

/-- C6 witness: Scenario B of the specification —
`[a(done,0), b(pending,1), c(pending,2)]` reordered by `["c","b"]`
succeeds. -/
theorem reorder_order_assignment_witness :
    ((reorderMilestones [mkM ("a") ("u") true 0, mkM ("b") ("u") false 1,
        mkM ("c") ("u") false 2] ("u") [("c"), ("b")]).2).isOk = true :=
  (reorder_order_assignment [mkM ("a") ("u") true 0, mkM ("b") ("u") false 1,
      mkM ("c") ("u") false 2] ("u") [("c"), ("b")] (by decide) (by decide)).1

/-! ### Machinery for reorder idempotence (C9) -/

theorem orderedIds_exist (store : List Milestone) (u : String)
    (orderedIds : List String)
    (hperm : List.Perm orderedIds (incompleteIds store u)) :
    ∀ i ∈ orderedIds, ∃ m ∈ store, m.id = i := by
  intro i hi
  obtain ⟨m, hm, rfl⟩ := List.mem_map.mp (hperm.subset hi)
  exact ⟨m, mem_store_of_mem_listMilestones (List.mem_of_mem_filter hm), rfl⟩

theorem pairwise_lt_of_le_nodup {l : List Milestone}
    (hle : l.Pairwise orderLe) (hnd : (l.map Milestone.order).Nodup) :
    l.Pairwise orderLt := by
  have hnd' : (l.map Milestone.order).Pairwise (fun a b => a ≠ b) := hnd
  rw [List.pairwise_map] at hnd'
  exact (hle.and hnd').imp fun h => lt_of_le_of_ne h.1 h.2

theorem strict_sorted_unique {l1 l2 : List Milestone}
    (hp : List.Perm l1 l2) (h1 : l1.Pairwise orderLt) (h2 : l2.Pairwise orderLt) :
    l1 = l2 :=
  List.eq_of_perm_of_sorted hp h1 h2

theorem updMil_idem (upds : List (String × Int))
    (hfstnd : (upds.map Prod.fst).Nodup) (m : Milestone) :
    updMil upds (updMil upds m) = updMil upds m := by
  by_cases h : m.id ∈ upds.map Prod.fst
  · obtain ⟨p, hp, hpid⟩ := List.mem_map.mp h
    have hpm : (m.id, p.2) ∈ upds := by
      rw [← hpid, Prod.mk.eta]
      exact hp
    rw [updMil_eq_of_mem upds m p.2 hfstnd hpm]
    exact updMil_eq_of_mem upds { m with order := p.2 } p.2 hfstnd hpm
  · rw [updMil_eq_self upds m h, updMil_eq_self upds m h]

theorem orders_on_completed (store : List Milestone) (u : String)
    (orderedIds : List String) (hnd : (store.map Milestone.id).Nodup)
    (hperm : List.Perm orderedIds (incompleteIds store u))
    (j : Nat) (hj : j < (completedPart store u).length) :
    (updMil (reorderUpdates store u orderedIds)
        ((completedPart store u).get ⟨j, hj⟩)).order = (j : Int) := by
  have hfstnd := reorder_upds_fst_nodup store u orderedIds hnd hperm
  rw [updMil_eq_of_mem _ _ _ hfstnd (mem_upds_completed store u orderedIds j hj)]

theorem completed_map_strict (store : List Milestone) (u : String)
    (orderedIds : List String) (hnd : (store.map Milestone.id).Nodup)
    (hperm : List.Perm orderedIds (incompleteIds store u)) :
    ((completedPart store u).map
        (updMil (reorderUpdates store u orderedIds))).Pairwise orderLt := by
  rw [List.pairwise_iff_getElem]
  intro i j hi hj hij
  have hi' : i < (completedPart store u).length := by simpa using hi
  have hj' : j < (completedPart store u).length := by simpa using hj
  have oi := orders_on_completed store u orderedIds hnd hperm i hi'
  have oj := orders_on_completed store u orderedIds hnd hperm j hj'
  simp only [List.get_eq_getElem] at oi oj
  show orderLt _ _
  simp only [orderLt, List.getElem_map, oi, oj]
  exact_mod_cast hij

theorem filter_user_map_updMil (store : List Milestone) (u : String)
    (upds : List (String × Int)) :
    (store.map (updMil upds)).filter (fun m => decide (m.userId = u))
      = (store.filter (fun m => decide (m.userId = u))).map (updMil upds) := by
  rw [List.filter_map]
  have hpg : ((fun m => decide (m.userId = u)) ∘ updMil upds)
      = (fun m => decide (m.userId = u)) :=
    funext fun m => by simp [Function.comp, updMil_userId]
  rw [hpg]

theorem filter_completed_map_updMil (l : List Milestone)
    (upds : List (String × Int)) :
    (l.map (updMil upds)).filter (fun m => m.completed)
      = (l.filter (fun m => m.completed)).map (updMil upds) := by
  rw [List.filter_map]
  have hpg : ((fun m => m.completed) ∘ updMil upds) = (fun m : Milestone => m.completed) :=
    funext fun m => by simp [Function.comp, updMil_completed]
  rw [hpg]

theorem completedPart_after_reorder (store : List Milestone) (u : String)
    (orderedIds : List String) (hnd : (store.map Milestone.id).Nodup)
    (hperm : List.Perm orderedIds (incompleteIds store u)) :
    completedPart (store.map (updMil (reorderUpdates store u orderedIds))) u
      = (completedPart store u).map (updMil (reorderUpdates store u orderedIds)) := by
  have hpermA : List.Perm
      (completedPart (store.map (updMil (reorderUpdates store u orderedIds))) u)
      ((completedPart store u).map (updMil (reorderUpdates store u orderedIds))) := by
    have p1 : List.Perm
        (completedPart (store.map (updMil (reorderUpdates store u orderedIds))) u)
        (((store.filter (fun m => decide (m.userId = u))).map
            (updMil (reorderUpdates store u orderedIds))).filter (fun m => m.completed)) := by
      show List.Perm (List.filter _ (sortByOrder _)) _
      rw [filter_user_map_updMil]
      exact (sortByOrder_perm _).filter _
    have p2 : ((store.filter (fun m => decide (m.userId = u))).map
          (updMil (reorderUpdates store u orderedIds))).filter (fun m => m.completed)
        = ((store.filter (fun m => decide (m.userId = u))).filter
            (fun m => m.completed)).map (updMil (reorderUpdates store u orderedIds)) :=
      filter_completed_map_updMil _ _
    have p3 : List.Perm
        ((store.filter (fun m => decide (m.userId = u))).filter (fun m => m.completed))
        (completedPart store u) :=
      (((sortByOrder_perm (store.filter (fun m => decide (m.userId = u)))).filter
        (fun m => m.completed)).symm)
    exact (p1.trans (p2 ▸ (p3.map _)))
  have hstrictR := completed_map_strict store u orderedIds hnd hperm
  have hndR : (((completedPart store u).map
      (updMil (reorderUpdates store u orderedIds))).map Milestone.order).Nodup := by
    apply List.pairwise_map.mpr
    exact hstrictR.imp fun h => ne_of_lt h
  have hndL : ((completedPart (store.map
      (updMil (reorderUpdates store u orderedIds))) u).map Milestone.order).Nodup :=
    ((hpermA.map Milestone.order).symm).nodup hndR
  have hleL : (completedPart (store.map
      (updMil (reorderUpdates store u orderedIds))) u).Pairwise orderLe :=
    List.Pairwise.filter _ (sortByOrder_sorted _)
  exact strict_sorted_unique hpermA (pairwise_lt_of_le_nodup hleL hndL) hstrictR

theorem reorderUpdates_after_reorder (store : List Milestone) (u : String)
    (orderedIds : List String) (hnd : (store.map Milestone.id).Nodup)
    (hperm : List.Perm orderedIds (incompleteIds store u)) :
    reorderUpdates (store.map (updMil (reorderUpdates store u orderedIds))) u orderedIds
      = reorderUpdates store u orderedIds := by
  conv =>
    lhs
    rw [reorderUpdates_eq, completedPart_after_reorder store u orderedIds hnd hperm,
      List.map_map]
  rw [reorderUpdates_eq]
  have hcomp : ∀ upds : List (String × Int),
      ((fun m => m.id) ∘ updMil upds) = (fun m : Milestone => m.id) :=
    fun upds => funext fun m => updMil_id _ _
  rw [hcomp]

/-- C9: when the submitted ids are exactly a permutation of the user's
incomplete milestone ids (and table ids are unique), running the reorder
a second time with the same permutation returns the same table and the
same response as the first run — the reorder is idempotent. -/
theorem reorder_idempotent
    (store : List Milestone) (u : String) (orderedIds : List String)
    (hnd : (store.map Milestone.id).Nodup)
    (hperm : List.Perm orderedIds (incompleteIds store u)) :
    reorderMilestones (reorderMilestones store u orderedIds).1 u orderedIds
      = reorderMilestones store u orderedIds := by
  have hfstnd := reorder_upds_fst_nodup store u orderedIds hnd hperm
  have hex := orderedIds_exist store u orderedIds hperm
  have hfst1 : (reorderMilestones store u orderedIds).1
      = store.map (updMil (reorderUpdates store u orderedIds)) :=
    reorderMilestones_fst store u orderedIds
  have hupds2 : reorderUpdates (reorderMilestones store u orderedIds).1 u orderedIds
      = reorderUpdates store u orderedIds := by
    rw [hfst1]
    exact reorderUpdates_after_reorder store u orderedIds hnd hperm
  have hfst2 : (reorderMilestones (reorderMilestones store u orderedIds).1 u
        orderedIds).1
      = (reorderMilestones store u orderedIds).1 := by
    rw [reorderMilestones_fst, hupds2, hfst1, List.map_map]
    exact List.map_congr_left fun m _ => updMil_idem _ hfstnd m
  have hex2 : ∀ i ∈ orderedIds,
      ∃ m ∈ (reorderMilestones store u orderedIds).1, m.id = i := by
    intro i hi
    obtain ⟨m, hm, rfl⟩ := hex i hi
    refine ⟨updMil (reorderUpdates store u orderedIds) m, ?_, updMil_id _ _⟩
    rw [hfst1]
    exact List.mem_map_of_mem _ hm
  have hsnd1 := reorder_snd_of_ids_exist store u orderedIds hex
  have hsnd2 := reorder_snd_of_ids_exist (reorderMilestones store u orderedIds).1 u
    orderedIds hex2
  have hsame : (reorderMilestones (reorderMilestones store u orderedIds).1 u
        orderedIds).2
      = (reorderMilestones store u orderedIds).2 := by
    rw [hsnd2, hsnd1, hfst2]
  exact Prod.ext hfst2 hsame

/-- C9 witness: Scenario B — reordering `[a(done), b(pending), c(pending)]`
by `["c","b"]` twice gives the same table and response as once. -/
theorem reorder_idempotent_witness :
    reorderMilestones (reorderMilestones [mkM ("a") ("u") true 0,
        mkM ("b") ("u") false 1, mkM ("c") ("u") false 2] ("u") [("c"), ("b")]).1
        ("u") [("c"), ("b")]
      = reorderMilestones [mkM ("a") ("u") true 0, mkM ("b") ("u") false 1,
          mkM ("c") ("u") false 2] ("u") [("c"), ("b")] :=
  reorder_idempotent [mkM ("a") ("u") true 0, mkM ("b") ("u") false 1,
    mkM ("c") ("u") false 2] ("u") [("c"), ("b")] (by decide) (by decide)
